import Mathlib

set_option maxHeartbeats 1000000

namespace DataLoader

/-! ### Python string primitives used by `data_loader.py` -/

/-- Split a character buffer at every character satisfying `p` (each matching
character is a separator; adjacent separators produce empty fields). -/
def splitWhen (p : Char → Bool) : List Char → List (List Char)
  | [] => [[]]
  | c :: cs =>
    if p c then [] :: splitWhen p cs
    else
      match splitWhen p cs with
      | [] => [[c]]
      | l :: ls => (c :: l) :: ls

/-- Python `str.split()` with no argument: split on whitespace runs, dropping
empty fields (used at `data_loader.py:183` and, via `line.split()[0]`, at
`data_loader.py:168`). -/
def pySplit (s : String) : List String :=
  ((splitWhen (fun c => c.isWhitespace) s.data).filter (fun l => !l.isEmpty)).map String.mk

/-- Python `str.splitlines()` restricted to newline-separated text, on a
character buffer: one entry per line, a trailing newline adds no extra empty
entry, and the empty buffer yields no lines. -/
def splitlinesChars (cs : List Char) : List (List Char) :=
  match cs with
  | [] => []
  | _ =>
    if cs.getLast? = some '\n' then splitWhen (fun c => c = '\n') cs.dropLast
    else splitWhen (fun c => c = '\n') cs

/-- Python `str.splitlines()` on the file content (used at
`data_loader.py:168`). -/
def pySplitlines (s : String) : List String :=
  (splitlinesChars s.data).map String.mk

/-- A Python `dict` modelled as an association list whose head is the most
recent assignment; `dictGet` returns the most recent binding for a key. -/
def dictGet [DecidableEq α] : List (α × β) → α → Option β
  | [], _ => none
  | (k, v) :: rest, a => if a = k then some v else dictGet rest a

/-- The Python errors the modelled fragments can raise. -/
inductive PyErr where
  | keyError
  | indexError
deriving DecidableEq

/-- A Python list comprehension whose body may raise: the first raise aborts
the whole comprehension. -/
def traverseE (f : α → Except PyErr β) : List α → Except PyErr (List β)
  | [] => .ok []
  | a :: as =>
    match f a with
    | .error e => .error e
    | .ok b =>
      match traverseE f as with
      | .error e => .error e
      | .ok bs => .ok (b :: bs)

/-- A Python list comprehension whose body may raise, with the raise modelled
as `none`. -/
def traverseO (f : α → Option β) : List α → Option (List β)
  | [] => some []
  | a :: as =>
    match f a with
    | none => none
    | some b =>
      match traverseO f as with
      | none => none
      | some bs => some (b :: bs)

/-- `List.enumFrom`: pair each element with its index, starting at `i`. -/
def enumFromL (i : Nat) : List α → List (Nat × α)
  | [] => []
  | a :: as => (i, a) :: enumFromL (i + 1) as

/-! ### Data model: the `DataLoader.dictionary` class attribute -/

/-- One language side of `DataLoader.dictionary`: the two mappings built by
`load_bpe_vocab`. -/
structure VocabSide where
  token2idx : List (String × Nat)
  idx2token : List (Nat × String)

/-- The `DataLoader.dictionary` class attribute: one `VocabSide` for the
`'source'` key and one for the `'target'` key. -/
structure Dictionary where
  source : VocabSide
  target : VocabSide

/-- `self.dictionary[mode]`: a lookup in a dict whose only keys are
`'source'` and `'target'`; any other mode raises `KeyError`. -/
def getMode (d : Dictionary) (mode : String) : Option VocabSide :=
  if mode = "source" then some d.source
  else if mode = "target" then some d.target
  else none

/-! ### `load_bpe_vocab` (data_loader.py:167-175) -/

/-- `line.split()[0]`: the first whitespace-delimited field of a vocabulary
line; indexing an empty field list raises `IndexError` (modelled as `none`). -/
def firstField (line : String) : Option String :=
  (pySplit line).head?

/-- The loop of `load_bpe_vocab`: `for idx, token in enumerate(vocab):
token2idx[token] = idx; idx2token[idx] = token`, with dict assignment
modelled by prepending (most recent assignment wins on lookup). -/
def buildVocabGo : List String → Nat → List (String × Nat) → List (Nat × String) →
    List (String × Nat) × List (Nat × String)
  | [], _, t2i, i2t => (t2i, i2t)
  | tok :: rest, idx, t2i, i2t =>
    buildVocabGo rest (idx + 1) ((tok, idx) :: t2i) ((idx, tok) :: i2t)

/-- Build `token2idx` and `idx2token` from the extracted token list. -/
def buildVocabDicts (vocab : List String) : List (String × Nat) × List (Nat × String) :=
  buildVocabGo vocab 0 [] []

/-- `[line.split()[0] for line in open(path).read().splitlines()]` applied to
the vocabulary file content. -/
def extractVocab (content : String) : Option (List String) :=
  traverseO firstField (pySplitlines content)

/-- `DataLoader.load_bpe_vocab`, modelled on the vocabulary file content:
extract one token per line (first whitespace-delimited field, `IndexError` if
a line has no field) and build both direction mappings. -/
def load_bpe_vocab (content : String) : Option (List (String × Nat) × List (Nat × String)) :=
  (extractVocab content).map buildVocabDicts

/-! ### `texts_to_sequences` / `sequences_to_texts` (data_loader.py:177-207) -/

/-- The comprehension body of `texts_to_sequences`:
`self.dictionary[mode]['token2idx'].get(token, self.dictionary[mode]['token2idx']["<unk>"])`.
Python evaluates `self.dictionary[mode]` first (`KeyError` on a bad mode) and
evaluates the `.get` default `token2idx["<unk>"]` eagerly, for every token
(`KeyError` when `"<unk>"` is not a key). -/
def encodeToken (d : Dictionary) (mode : String) (token : String) : Except PyErr Nat :=
  match getMode d mode with
  | none => .error .keyError
  | some side =>
    match dictGet side.token2idx "<unk>" with
    | none => .error .keyError
    | some unkId => .ok ((dictGet side.token2idx token).getD unkId)

/-- `DataLoader.texts_to_sequences`. Note: the source builds
`ValueError('not allowed mode.')` at line 179 but never raises it (there is no
`raise`), so the mode check has no effect and is not part of the model; a bad
mode instead surfaces as a `KeyError` from `self.dictionary[mode]` inside the
comprehension, and only when some token is actually processed. -/
def texts_to_sequences (d : Dictionary) (texts : List String) (mode : String) :
    Except PyErr (List (List Nat)) :=
  traverseE
    (fun text => traverseE (encodeToken d mode) ("<s>" :: pySplit text ++ ["</s>"]))
    texts

/-- The comprehension body of `sequences_to_texts`:
`self.dictionary[mode]['idx2token'].get(idx, self.dictionary[mode]['idx2token'][1])`.
The fallback uses the literal id `1`, evaluated eagerly for every id. -/
def decodeIdx (d : Dictionary) (mode : String) (idx : Nat) : Except PyErr String :=
  match getMode d mode with
  | none => .error .keyError
  | some side =>
    match dictGet side.idx2token 1 with
    | none => .error .keyError
    | some unkTok => .ok ((dictGet side.idx2token idx).getD unkTok)

/-- `DataLoader.sequences_to_texts`. As in `texts_to_sequences`, the
`ValueError` at line 195 is constructed but never raised. -/
def sequences_to_texts (d : Dictionary) (seqs : List (List Nat)) (mode : String) :
    Except PyErr (List (List String)) :=
  traverseE (fun sq => traverseE (decodeIdx d mode) sq) seqs

/-! ### `parse_data_and_save` (data_loader.py:112-123)

The file content is modelled as a character buffer (`List Char`). -/

/-- The whitespace test of Python `str.strip()` / `str.split()`. -/
def isWS (c : Char) : Bool := c.isWhitespace

/-- Remove leading whitespace. -/
def stripLeft (s : List Char) : List Char := s.dropWhile isWS

/-- Remove trailing whitespace. -/
def stripRight (s : List Char) : List Char := (s.reverse.dropWhile isWS).reverse

/-- Python `str.strip()`: remove leading and trailing whitespace. -/
def pyStrip (s : List Char) : List Char := stripRight (stripLeft s)

/-- Python `str.split('\n')` on a character buffer. -/
def splitNl : List Char → List (List Char) :=
  splitWhen (fun c => c = '\n')

/-- Python `'\n'.join(lines)` on character buffers. -/
def joinNl : List (List Char) → List Char
  | [] => []
  | [l] => l
  | l :: ls => l ++ '\n' :: joinNl ls

/-- `DataLoader.parse_data_and_save`, modelled on the file content: returns
the line list (`f.read().strip().split('\n')`) together with the content
written back to the same path (`'\n'.join(lines)`). -/
def parse_data_and_save (content : List Char) : List (List Char) × List Char :=
  let lines := splitNl (pyStrip content)
  (lines, joinNl lines)

/-! ### `train_bpe` (data_loader.py:125-145)

The filesystem is modelled as an association list from path to content, and
the external `sentencepiece` trainer as an opaque function producing the
contents of the `.model` and `.vocab` artifacts.  The returned flag records
whether `SentencePieceTrainer.Train` was invoked. -/

/-- `DataLoader.BPE_MODEL_SUFFIX`. -/
def bpeModelSuffix : String := ".model"

/-- `DataLoader.BPE_VOCAB_SUFFIX`. -/
def bpeVocabSuffix : String := ".vocab"

/-- `DataLoader.train_bpe`: if both `<modelPfx>.model` and `<modelPfx>.vocab`
exist, do nothing; otherwise invoke the trainer and write both artifacts. -/
def train_bpe (fs : List (String × String)) (trainer : String → String → String × String)
    (dataPath modelPfx : String) : List (String × String) × Bool :=
  let modelPath := modelPfx ++ bpeModelSuffix
  let vocabPath := modelPfx ++ bpeVocabSuffix
  if !((dictGet fs modelPath).isSome && (dictGet fs vocabPath).isSome) then
    let mv := trainer dataPath modelPfx
    ((vocabPath, mv.2) :: (modelPath, mv.1) :: fs, true)
  else
    (fs, false)

/-! ### Concrete instances used by witnesses -/

/-- The round-trip example vocabulary file of the spec, as file content. -/
def exContent : String := "<pad>\n<unk>\n<s>\n</s>\nhel@@\nlo\nworld"

/-- `token2idx` as built by `load_bpe_vocab` from `exContent`. -/
def exT2i : List (String × Nat) :=
  [("world", 6), ("lo", 5), ("hel@@", 4), ("</s>", 3), ("<s>", 2), ("<unk>", 1), ("<pad>", 0)]

/-- `idx2token` as built by `load_bpe_vocab` from `exContent`. -/
def exI2t : List (Nat × String) :=
  [(6, "world"), (5, "lo"), (4, "hel@@"), (3, "</s>"), (2, "<s>"), (1, "<unk>"), (0, "<pad>")]

/-- A loaded dictionary whose source side is the `exContent` vocabulary. -/
def exDict : Dictionary := ⟨⟨exT2i, exI2t⟩, ⟨[], []⟩⟩

/-- The spec's vocabulary-bijection example, as file content. -/
def c4content : String := "<pad>\n<unk>\n<s>\n</s>\nthe\ncat"

/-- The token list extracted from `c4content`. -/
def c4vocab : List String := ["<pad>", "<unk>", "<s>", "</s>", "the", "cat"]

/-- `token2idx` as built by `load_bpe_vocab` from `c4content`. -/
def c4t2i : List (String × Nat) :=
  [("cat", 5), ("the", 4), ("</s>", 3), ("<s>", 2), ("<unk>", 1), ("<pad>", 0)]

/-- `idx2token` as built by `load_bpe_vocab` from `c4content`. -/
def c4i2t : List (Nat × String) :=
  [(5, "cat"), (4, "the"), (3, "</s>"), (2, "<s>"), (1, "<unk>"), (0, "<pad>")]

/-- A small dictionary whose source side maps `"<unk>"` to the reserved id 1. -/
def c5Dict : Dictionary :=
  ⟨⟨[("<unk>", 1), ("<s>", 2), ("</s>", 3)], [(1, "<unk>"), (2, "<s>"), (3, "</s>")]⟩, ⟨[], []⟩⟩

/-- A dictionary whose source `token2idx` has no `"<unk>"` key. -/
def c10Dict : Dictionary := ⟨⟨[("a", 0), ("<s>", 2), ("</s>", 3)], []⟩, ⟨[], []⟩⟩

/-- A dictionary with empty mappings on both sides. -/
def emptyDict : Dictionary := ⟨⟨[], []⟩, ⟨[], []⟩⟩

/-- A filesystem already holding the `p.model` / `p.vocab` artifact pair. -/
def exFs : List (String × String) := [("p.model", "m"), ("p.vocab", "v")]

/-! ### Helper lemmas: association-list lookup -/

theorem dictGet_nil [DecidableEq α] (a : α) : dictGet ([] : List (α × β)) a = none := rfl

theorem dictGet_cons [DecidableEq α] (k : α) (v : β) (l : List (α × β)) (a : α) :
    dictGet ((k, v) :: l) a = if a = k then some v else dictGet l a := rfl

theorem dictGet_append_some [DecidableEq α] {l₁ : List (α × β)} {a : α} {v : β}
    (l₂ : List (α × β)) (h : dictGet l₁ a = some v) : dictGet (l₁ ++ l₂) a = some v := by
  induction l₁ with
  | nil => simp [dictGet] at h
  | cons kv l ih =>
    obtain ⟨k, w⟩ := kv
    by_cases hk : a = k
    · rw [dictGet_cons, if_pos hk] at h
      rw [List.cons_append, dictGet_cons, if_pos hk]
      exact h
    · rw [dictGet_cons, if_neg hk] at h
      rw [List.cons_append, dictGet_cons, if_neg hk]
      exact ih h

theorem dictGet_append_none [DecidableEq α] {l₁ : List (α × β)} {a : α}
    (l₂ : List (α × β)) (h : dictGet l₁ a = none) :
    dictGet (l₁ ++ l₂) a = dictGet l₂ a := by
  induction l₁ with
  | nil => simp
  | cons kv l ih =>
    obtain ⟨k, w⟩ := kv
    by_cases hk : a = k
    · rw [dictGet_cons, if_pos hk] at h
      exact absurd h (by simp)
    · rw [dictGet_cons, if_neg hk] at h
      rw [List.cons_append, dictGet_cons, if_neg hk]
      exact ih h

theorem mem_of_dictGet [DecidableEq α] {l : List (α × β)} {a : α} {v : β}
    (h : dictGet l a = some v) : (a, v) ∈ l := by
  induction l with
  | nil => simp [dictGet] at h
  | cons kv l ih =>
    obtain ⟨k, w⟩ := kv
    by_cases hk : a = k
    · subst hk
      rw [dictGet_cons, if_pos rfl] at h
      cases h
      exact List.mem_cons_self _ _
    · rw [dictGet_cons, if_neg hk] at h
      exact List.mem_cons_of_mem _ (ih h)

theorem dictGet_isSome_of_mem [DecidableEq α] {l : List (α × β)} {a : α}
    (h : a ∈ l.map Prod.fst) : (dictGet l a).isSome := by
  induction l with
  | nil => simp at h
  | cons kv l ih =>
    obtain ⟨k, w⟩ := kv
    by_cases hk : a = k
    · rw [dictGet_cons, if_pos hk]
      rfl
    · rw [dictGet_cons, if_neg hk]
      simp only [List.map_cons, List.mem_cons] at h
      rcases h with h | h
      · exact absurd h hk
      · exact ih h

/-! ### Helper lemmas: `enumFromL` -/

theorem enumFromL_nil (i : Nat) : enumFromL i ([] : List α) = [] := rfl

theorem enumFromL_cons (i : Nat) (a : α) (as : List α) :
    enumFromL i (a :: as) = (i, a) :: enumFromL (i + 1) as := rfl

theorem length_enumFromL (i : Nat) (l : List α) : (enumFromL i l).length = l.length := by
  induction l generalizing i with
  | nil => rfl
  | cons a as ih => simp [enumFromL_cons, ih]

theorem map_snd_enumFromL (i : Nat) (l : List α) : (enumFromL i l).map Prod.snd = l := by
  induction l generalizing i with
  | nil => rfl
  | cons a as ih => simp [enumFromL_cons, ih]

theorem mem_enumFromL {l : List α} {a : α} : ∀ {s j : Nat}, (j, a) ∈ enumFromL s l →
    s ≤ j ∧ l[j - s]? = some a := by
  induction l with
  | nil => intro s j h; simp [enumFromL_nil] at h
  | cons b bs ih =>
    intro s j h
    rw [enumFromL_cons, List.mem_cons] at h
    rcases h with h | h
    · obtain ⟨h1, h2⟩ := Prod.mk.injEq .. ▸ h
      subst h1; subst h2
      simp
    · obtain ⟨h1, h2⟩ := ih h
      refine ⟨by omega, ?_⟩
      have hj : j - s = (j - (s + 1)) + 1 := by omega
      rw [hj, List.getElem?_cons_succ]
      exact h2

theorem dictGet_enumFromL_reverse (l : List α) : ∀ s j : Nat,
    dictGet (enumFromL s l).reverse j = if s ≤ j then l[j - s]? else none := by
  induction l with
  | nil =>
    intro s j
    simp only [enumFromL_nil, List.reverse_nil, dictGet_nil]
    split <;> simp
  | cons a as ih =>
    intro s j
    rw [enumFromL_cons, List.reverse_cons]
    rcases Nat.lt_or_ge j (s + 1) with hj | hj
    · have h1 : dictGet (enumFromL (s + 1) as).reverse j = none := by
        rw [ih (s + 1) j, if_neg (by omega)]
      rw [dictGet_append_none _ h1]
      by_cases hjs : j = s
      · subst hjs
        simp [dictGet_cons]
      · rw [dictGet_cons, if_neg hjs, dictGet_nil, if_neg (by omega)]
    · have h1 : dictGet (enumFromL (s + 1) as).reverse j = as[j - (s + 1)]? := by
        rw [ih (s + 1) j, if_pos hj]
      have hsucc : (a :: as)[j - s]? = as[j - (s + 1)]? := by
        have hj' : j - s = (j - (s + 1)) + 1 := by omega
        rw [hj', List.getElem?_cons_succ]
      cases hv : as[j - (s + 1)]? with
      | some b =>
        rw [dictGet_append_some _ (h1.trans hv), if_pos (by omega), hsucc, hv]
      | none =>
        rw [dictGet_append_none _ (h1.trans hv), dictGet_cons, if_neg (by omega),
          dictGet_nil, if_pos (by omega), hsucc, hv]

theorem count_map_fst_enumFromL (l : List α) : ∀ s j : Nat,
    ((enumFromL s l).map Prod.fst).count j = if s ≤ j ∧ j < s + l.length then 1 else 0 := by
  induction l with
  | nil =>
    intro s j
    simp only [enumFromL_nil, List.map_nil, List.count_nil, List.length_nil]
    rw [if_neg (by omega)]
  | cons a as ih =>
    intro s j
    rw [enumFromL_cons, List.map_cons, List.count_cons, ih (s + 1) j]
    simp only [List.length_cons, beq_iff_eq]
    by_cases hjs : s = j
    · subst hjs
      rw [if_neg (by omega), if_pos rfl, if_pos (by omega)]
    · by_cases hin : s + 1 ≤ j ∧ j < s + 1 + as.length
      · rw [if_pos hin, if_neg hjs, if_pos (by omega)]
      · rw [if_neg hin, if_neg hjs, if_neg (by omega)]

/-! ### Helper lemmas: the vocabulary builder -/

theorem buildVocabGo_eq (vocab : List String) : ∀ (i : Nat) t2i i2t,
    buildVocabGo vocab i t2i i2t =
      (((enumFromL i vocab).map (fun p => (p.2, p.1))).reverse ++ t2i,
        (enumFromL i vocab).reverse ++ i2t) := by
  induction vocab with
  | nil => intro i t2i i2t; simp [buildVocabGo, enumFromL_nil]
  | cons tok rest ih =>
    intro i t2i i2t
    rw [buildVocabGo, ih (i + 1), enumFromL_cons]
    simp [List.reverse_cons, List.append_assoc]

theorem buildVocabDicts_eq (vocab : List String) :
    buildVocabDicts vocab =
      (((enumFromL 0 vocab).map (fun p => (p.2, p.1))).reverse,
        (enumFromL 0 vocab).reverse) := by
  rw [buildVocabDicts, buildVocabGo_eq]
  simp

/-- Success of `load_bpe_vocab` exposes the extracted token list and the shape
of the two mappings. -/
theorem load_bpe_vocab_eq_some {content : String} {t2i : List (String × Nat)}
    {i2t : List (Nat × String)} (h : load_bpe_vocab content = some (t2i, i2t)) :
    ∃ vocab, extractVocab content = some vocab ∧
      t2i = ((enumFromL 0 vocab).map (fun p => (p.2, p.1))).reverse ∧
      i2t = (enumFromL 0 vocab).reverse := by
  rw [load_bpe_vocab] at h
  cases hv : extractVocab content with
  | none => rw [hv] at h; simp at h
  | some vocab =>
    rw [hv] at h
    simp only [Option.map_some', Option.some.injEq] at h
    refine ⟨vocab, rfl, ?_, ?_⟩
    · have := congrArg Prod.fst h.symm
      rw [buildVocabDicts_eq] at this
      exact this
    · have := congrArg Prod.snd h.symm
      rw [buildVocabDicts_eq] at this
      exact this

/-- `idx2token` built from `vocab` looks up exactly the positional entries. -/
theorem dictGet_i2t (vocab : List String) (j : Nat) :
    dictGet (enumFromL 0 vocab).reverse j = vocab[j]? := by
  rw [dictGet_enumFromL_reverse, if_pos (Nat.zero_le j)]
  simp

/-- Any binding found in `token2idx` points back to its position in `vocab`. -/
theorem t2i_points_into_vocab {vocab : List String} {t : String} {i : Nat}
    (h : dictGet ((enumFromL 0 vocab).map (fun p => (p.2, p.1))).reverse t = some i) :
    vocab[i]? = some t := by
  have hm := mem_of_dictGet h
  rw [List.mem_reverse, List.mem_map] at hm
  obtain ⟨⟨j, u⟩, hmem, heq⟩ := hm
  obtain ⟨h1, h2⟩ := Prod.mk.injEq .. ▸ heq
  subst h1; subst h2
  have := (mem_enumFromL hmem).2
  simpa using this

/-- Every token of `vocab` has a binding in `token2idx`. -/
theorem t2i_isSome_of_mem {vocab : List String} {t : String} (h : t ∈ vocab) :
    (dictGet ((enumFromL 0 vocab).map (fun p => (p.2, p.1))).reverse t).isSome := by
  apply dictGet_isSome_of_mem
  rw [List.map_reverse, List.mem_reverse, List.map_map]
  have : (Prod.fst ∘ fun p : Nat × String => (p.2, p.1)) = Prod.snd := rfl
  rw [this, map_snd_enumFromL]
  exact h

/-! ### Helper lemmas: comprehensions -/

theorem traverseE_ok_map (f : α → Except PyErr β) (g : α → β) :
    ∀ l : List α, (∀ a ∈ l, f a = .ok (g a)) → traverseE f l = .ok (l.map g) := by
  intro l
  induction l with
  | nil => intro _; rfl
  | cons a as ih =>
    intro h
    rw [traverseE, h a (List.mem_cons_self _ _), ih (fun b hb => h b (List.mem_cons_of_mem _ hb))]
    simp

theorem traverseO_eq_none (f : α → Option β) {l : List α} {a : α}
    (ha : a ∈ l) (h : f a = none) : traverseO f l = none := by
  induction l with
  | nil => simp at ha
  | cons b bs ih =>
    rw [List.mem_cons] at ha
    rcases ha with ha | ha
    · subst ha
      rw [traverseO, h]
    · rw [traverseO]
      cases f b with
      | none => rfl
      | some c => rw [ih ha]

theorem traverseO_length {f : α → Option β} : ∀ {l : List α} {r : List β},
    traverseO f l = some r → r.length = l.length := by
  intro l
  induction l with
  | nil => intro r h; cases h; rfl
  | cons a as ih =>
    intro r h
    rw [traverseO] at h
    cases hf : f a with
    | none => rw [hf] at h; cases h
    | some b =>
      rw [hf] at h
      cases ht : traverseO f as with
      | none => rw [ht] at h; cases h
      | some bs =>
        rw [ht] at h
        cases h
        simp [ih ht]

theorem traverseO_getElem {f : α → Option β} : ∀ {l : List α} {r : List β},
    traverseO f l = some r → ∀ i : Nat, l[i]?.bind f = r[i]? := by
  intro l
  induction l with
  | nil => intro r h i; cases h; simp
  | cons a as ih =>
    intro r h i
    rw [traverseO] at h
    cases hf : f a with
    | none => rw [hf] at h; cases h
    | some b =>
      rw [hf] at h
      cases ht : traverseO f as with
      | none => rw [ht] at h; cases h
      | some bs =>
        rw [ht] at h
        cases h
        cases i with
        | zero => simp [hf]
        | succ n => simpa using ih ht n

/-! ### Helper lemmas: stripping and line splitting -/

theorem stripLeft_stripLeft (s : List Char) : stripLeft (stripLeft s) = stripLeft s :=
  List.dropWhile_idempotent ..

theorem stripRight_stripRight (s : List Char) : stripRight (stripRight s) = stripRight s := by
  rw [stripRight, stripRight, List.reverse_reverse, List.dropWhile_idempotent]

/-- `stripRight` keeps a prefix of its argument. -/
theorem stripRight_prefix_rest (s : List Char) :
    stripRight s ++ (s.reverse.takeWhile isWS).reverse = s := by
  rw [stripRight]
  have h := List.takeWhile_append_dropWhile (p := isWS) (l := s.reverse)
  have := congrArg List.reverse h
  rw [List.reverse_append, List.reverse_reverse] at this
  exact this

/-- A list unchanged by `dropWhile p` has no `p`-satisfying head. -/
theorem head_of_dropWhile_fixed {p : Char → Bool} {c : Char} {cs : List Char}
    (h : List.dropWhile p (c :: cs) = c :: cs) : p c = false := by
  by_cases hp : p c = true
  · rw [List.dropWhile_cons, if_pos hp] at h
    have hlen := congrArg List.length h
    have hle := (List.dropWhile_sublist (l := cs) p).length_le
    simp only [List.length_cons] at hlen
    omega
  · exact Bool.eq_false_iff.mpr hp

/-- A prefix of a `dropWhile p`-fixed list is itself `dropWhile p`-fixed. -/
theorem dropWhile_fixed_of_prefix {p : Char → Bool} {l t : List Char}
    (h : List.dropWhile p (l ++ t) = l ++ t) : List.dropWhile p l = l := by
  cases l with
  | nil => rfl
  | cons c cs =>
    rw [List.cons_append] at h
    have hc := head_of_dropWhile_fixed h
    rw [List.dropWhile_cons, hc]
    simp

theorem stripLeft_stripRight_of_fixed {s : List Char} (h : stripLeft s = s) :
    stripLeft (stripRight s) = stripRight s := by
  apply dropWhile_fixed_of_prefix (t := (s.reverse.takeWhile isWS).reverse)
  rw [stripRight_prefix_rest]
  exact h

theorem pyStrip_idem (s : List Char) : pyStrip (pyStrip s) = pyStrip s := by
  rw [pyStrip, pyStrip]
  rw [stripLeft_stripRight_of_fixed (stripLeft_stripLeft s), stripRight_stripRight]

theorem pyStrip_stripLeft (s : List Char) : pyStrip (stripLeft s) = pyStrip s := by
  rw [pyStrip, pyStrip, stripLeft_stripLeft]

theorem splitWhen_ne_nil (p : Char → Bool) (cs : List Char) : splitWhen p cs ≠ [] := by
  cases cs with
  | nil => simp [splitWhen]
  | cons c cs =>
    rw [splitWhen]
    by_cases hp : p c
    · simp [hp]
    · simp only [hp]
      cases splitWhen p cs <;> simp

theorem joinNl_cons_cons (l l' : List Char) (ls : List (List Char)) :
    joinNl (l :: l' :: ls) = l ++ '\n' :: joinNl (l' :: ls) := rfl

theorem joinNl_splitNl (cs : List Char) : joinNl (splitNl cs) = cs := by
  induction cs with
  | nil => rfl
  | cons c cs ih =>
    rw [splitNl] at ih ⊢
    rw [splitWhen]
    by_cases hc : c = '\n'
    · rw [if_pos (by simp [hc])]
      cases hs : splitWhen (fun c => c = '\n') cs with
      | nil => exact absurd hs (splitWhen_ne_nil _ _)
      | cons l ls =>
        rw [hs] at ih
        rw [joinNl_cons_cons, ih, List.nil_append, hc]
    · rw [if_neg (by simp [hc])]
      cases hs : splitWhen (fun c => c = '\n') cs with
      | nil => exact absurd hs (splitWhen_ne_nil _ _)
      | cons l ls =>
        rw [hs] at ih
        cases ls with
        | nil =>
          show joinNl [c :: l] = c :: cs
          have hl : l = cs := ih
          rw [joinNl, hl]
        | cons l' ls' =>
          show joinNl ((c :: l) :: l' :: ls') = c :: cs
          rw [joinNl_cons_cons] at ih ⊢
          rw [List.cons_append, ih]

theorem traverseE_singleton_ok {f : α → Except PyErr β} {a : α} {b : β}
    (h : f a = .ok b) : traverseE f [a] = .ok [b] := by
  rw [traverseE, h]
  rfl

theorem map_self_of_eq {α : Type _} {l : List α} {f : α → α} (h : ∀ a ∈ l, f a = a) :
    l.map f = l := by
  induction l with
  | nil => rfl
  | cons a as ih =>
    rw [List.map_cons, h a (List.mem_cons_self _ _),
      ih (fun b hb => h b (List.mem_cons_of_mem _ hb))]

/-! ## Claim theorems -/

/-- C1: for every list of piece-lines and every loaded vocabulary side (one
whose `token2idx` has an unknown-token entry), `texts_to_sequences` returns
one id-sequence per input line, obtained by splitting the line on whitespace,
prepending the begin marker `"<s>"`, appending the end marker `"</s>"`, and
mapping every token through `token2idx`, substituting the unknown id for any
absent token. -/
theorem c1_encode (d : Dictionary) (mode : String) (side : VocabSide) (uk : Nat)
    (hm : getMode d mode = some side)
    (hu : dictGet side.token2idx "<unk>" = some uk) (texts : List String) :
    texts_to_sequences d texts mode =
      Except.ok (texts.map (fun text =>
        ("<s>" :: pySplit text ++ ["</s>"]).map
          (fun tok => (dictGet side.token2idx tok).getD uk))) := by
  rw [texts_to_sequences]
  apply traverseE_ok_map
  intro text _
  apply traverseE_ok_map
  intro tok _
  simp only [encodeToken, hm, hu]

/-- C1 witness: the encode description evaluated on a concrete loaded side,
one line fully known, one line with an unknown token. -/
theorem c1_witness :
    texts_to_sequences exDict ["hel@@ lo world", "lo xyz"] "source" =
      Except.ok [[2, 4, 5, 6, 3], [2, 5, 1, 3]] := by
  have h := c1_encode exDict "source" exDict.source 1 rfl rfl ["hel@@ lo world", "lo xyz"]
  exact h.trans (by rfl)

/-- C3: the claim says a malformed `mode` signals an `InvalidModeError`, but
`texts_to_sequences` and `sequences_to_texts` construct
`ValueError('not allowed mode.')` without `raise` (data_loader.py:179,195),
so a bad mode is not signalled: with empty input both functions return
normally, and with non-empty input the failure is a `KeyError` from
`self.dictionary[mode]`, not a mode error. -/
theorem c3_modeNotChecked :
    texts_to_sequences emptyDict [] "invalid" = Except.ok [] ∧
    sequences_to_texts emptyDict [[]] "invalid" = Except.ok [[]] ∧
    texts_to_sequences emptyDict ["x"] "invalid" = Except.error PyErr.keyError :=
  ⟨rfl, rfl, rfl⟩

/-- C5: for every piece-line and every vocabulary side mapping `"<unk>"` to
the reserved id 1, encoding never raises, and any token absent from
`token2idx` is encoded as the unknown id 1 at its position. -/
theorem c5_unknownSubstitution (d : Dictionary) (mode : String) (side : VocabSide)
    (hm : getMode d mode = some side)
    (hu : dictGet side.token2idx "<unk>" = some 1) (line : String) :
    texts_to_sequences d [line] mode =
      Except.ok [("<s>" :: pySplit line ++ ["</s>"]).map
        (fun tok => (dictGet side.token2idx tok).getD 1)]
    ∧ ∀ (k : Nat) (tok : String), ("<s>" :: pySplit line ++ ["</s>"])[k]? = some tok →
        dictGet side.token2idx tok = none →
        (("<s>" :: pySplit line ++ ["</s>"]).map
          (fun tok => (dictGet side.token2idx tok).getD 1))[k]? = some 1 := by
  constructor
  · have hinner : traverseE (encodeToken d mode) ("<s>" :: pySplit line ++ ["</s>"]) =
        Except.ok (("<s>" :: pySplit line ++ ["</s>"]).map
          (fun tok => (dictGet side.token2idx tok).getD 1)) := by
      apply traverseE_ok_map
      intro tok _
      simp only [encodeToken, hm, hu]
    rw [texts_to_sequences]
    exact traverseE_singleton_ok hinner
  · intro k tok hk hnone
    rw [List.getElem?_map, hk]
    simp [hnone]

/-- C5 witness: encoding a line with the out-of-vocabulary piece `"xyz"`
succeeds and puts id 1 at its position. -/
theorem c5_witness : texts_to_sequences c5Dict ["xyz"] "source" = Except.ok [[2, 1, 3]] := by
  have h := (c5_unknownSubstitution c5Dict "source" c5Dict.source rfl rfl "xyz").1
  exact h.trans (by rfl)

/-- C6 counterexample: the claim says only trailing whitespace of the buffer
is stripped, but Python `str.strip()` also strips leading whitespace: on the
content `"\na"` the code returns the single line `"a"`, while
stripping only trailing whitespace would give the two lines `""`, `"a"`. -/
theorem c6_counterexample :
    (parse_data_and_save ['\n', 'a']).1 = [['a']] ∧
    splitNl (stripRight ['\n', 'a']) = [[], ['a']] ∧
    (parse_data_and_save ['\n', 'a']).1 ≠ splitNl (stripRight ['\n', 'a']) :=
  ⟨by decide, by decide, by decide⟩

/-- C6 (amended): `parse_data_and_save` returns the lines obtained by
stripping leading AND trailing whitespace from the whole buffer (not per
line) and splitting on newline, and rewrites the path with exactly those
lines rejoined by a single newline; in particular pre-stripping leading
whitespace does not change its result. -/
theorem c6_normalize (content : List Char) :
    parse_data_and_save content =
      (splitNl (pyStrip content), joinNl (splitNl (pyStrip content)))
    ∧ parse_data_and_save (stripLeft content) = parse_data_and_save content := by
  refine ⟨rfl, ?_⟩
  simp only [parse_data_and_save, pyStrip_stripLeft]

/-- C7: normalization is idempotent: running `parse_data_and_save` on the
content it has just written returns the same lines and writes byte-identical
content. -/
theorem c7_idempotent (content : List Char) :
    parse_data_and_save ((parse_data_and_save content).2) = parse_data_and_save content := by
  have h2 : (parse_data_and_save content).2 = pyStrip content := by
    simp only [parse_data_and_save]
    exact joinNl_splitNl (pyStrip content)
  rw [h2]
  simp only [parse_data_and_save, pyStrip_idem]

/-- C8: `train_bpe` skips training and leaves the filesystem unchanged when
both `<modelPfx>.model` and `<modelPfx>.vocab` exist, and invokes the trainer
if and only if at least one of the two files is absent. -/
theorem c8_trainCache (fs : List (String × String)) (trainer : String → String → String × String)
    (dataPath modelPfx : String) :
    ((dictGet fs (modelPfx ++ bpeModelSuffix)).isSome = true →
      (dictGet fs (modelPfx ++ bpeVocabSuffix)).isSome = true →
      train_bpe fs trainer dataPath modelPfx = (fs, false))
    ∧ ((train_bpe fs trainer dataPath modelPfx).2 = true ↔
        (dictGet fs (modelPfx ++ bpeModelSuffix) = none ∨
          dictGet fs (modelPfx ++ bpeVocabSuffix) = none)) := by
  constructor
  · intro hm hv
    simp [train_bpe, hm, hv]
  · cases hm : dictGet fs (modelPfx ++ bpeModelSuffix) with
    | none => simp [train_bpe, hm]
    | some m =>
      cases hv : dictGet fs (modelPfx ++ bpeVocabSuffix) with
      | none => simp [train_bpe, hm, hv]
      | some v => simp [train_bpe, hm, hv]

/-- C8 witness: with both artifacts present the trainer is not invoked and
the filesystem is returned unchanged. -/
theorem c8_witness : train_bpe exFs (fun _ _ => ("", "")) "d" "p" = (exFs, false) :=
  (c8_trainCache exFs (fun _ _ => ("", "")) "d" "p").1 (by decide) (by decide)

/-- C9 counterexample: the claim says loading an empty vocabulary file
signals an error, but `load_bpe_vocab` on empty content returns the empty
index without error. -/
theorem c9_counterexample : load_bpe_vocab "" = some ([], []) := rfl

/-- C9 (amended): loading an empty vocabulary file returns an empty index
without error; a vocabulary line with no whitespace-delimited field (empty or
whitespace-only) raises an `IndexError` from `line.split()[0]`, modelled as
failure of the whole load. -/
theorem c9_amended :
    load_bpe_vocab "" = some ([], []) ∧
    ∀ content line : String, line ∈ pySplitlines content →
      pySplit line = [] → load_bpe_vocab content = none := by
  refine ⟨rfl, ?_⟩
  intro content line hmem hsplit
  have h1 : traverseO firstField (pySplitlines content) = none :=
    traverseO_eq_none firstField hmem (by rw [firstField, hsplit]; rfl)
  rw [load_bpe_vocab, extractVocab, h1]
  rfl

/-- C9 witness: a vocabulary file with a whitespace-only middle line fails to
load. -/
theorem c9_witness : load_bpe_vocab "a\n \nb" = none :=
  c9_amended.2 "a\n \nb" " " (by decide) (by decide)

/-- C10: `texts_to_sequences` evaluates the `.get` default
`token2idx["<unk>"]` for every token it maps, so when `token2idx` has no
`"<unk>"` key, encoding any non-empty list of piece-lines raises `KeyError`
even if every token of every line is present. -/
theorem c10_eagerUnknownLookup (d : Dictionary) (mode : String) (side : VocabSide)
    (hm : getMode d mode = some side)
    (hu : dictGet side.token2idx "<unk>" = none)
    (texts : List String) (hne : texts ≠ []) :
    texts_to_sequences d texts mode = Except.error PyErr.keyError := by
  cases texts with
  | nil => exact absurd rfl hne
  | cons t ts =>
    have henc : encodeToken d mode "<s>" = Except.error PyErr.keyError := by
      simp only [encodeToken, hm, hu]
    simp only [texts_to_sequences, traverseE, henc]

/-- C10 witness: a side whose `token2idx` lists `"a"` but not `"<unk>"`
raises `KeyError` on encoding `["a"]`, although `"a"` itself is present. -/
theorem c10_witness :
    texts_to_sequences c10Dict ["a"] "source" = Except.error PyErr.keyError :=
  c10_eagerUnknownLookup c10Dict "source" c10Dict.source rfl rfl ["a"]
    (by simp)

/-- C4: for every vocabulary listing, `load_bpe_vocab` takes the first
whitespace-delimited field of each line as the token and assigns it the id
equal to the line's 0-based position; the two mappings are mutually inverse
over the listed tokens, and every id from 0 to n-1 is present exactly once in
`idx2token`. -/
theorem c4_vocabBijection (content : String) (vocab : List String)
    (t2i : List (String × Nat)) (i2t : List (Nat × String))
    (hv : extractVocab content = some vocab)
    (hl : load_bpe_vocab content = some (t2i, i2t)) :
    (pySplitlines content).length = vocab.length
    ∧ (∀ i : Nat, i < vocab.length →
        ∃ line tok, (pySplitlines content)[i]? = some line ∧
          (pySplit line).head? = some tok ∧ dictGet i2t i = some tok)
    ∧ (∀ t, t ∈ vocab → ∃ i, dictGet t2i t = some i ∧ dictGet i2t i = some t)
    ∧ (∀ t i, dictGet t2i t = some i → dictGet i2t i = some t)
    ∧ (∀ j, (i2t.map Prod.fst).count j = if j < vocab.length then 1 else 0) := by
  obtain ⟨vocab', hv', ht2i, hi2t⟩ := load_bpe_vocab_eq_some hl
  rw [hv] at hv'
  injection hv' with hveq
  subst hveq
  subst ht2i
  subst hi2t
  rw [extractVocab] at hv
  refine ⟨(traverseO_length hv).symm, ?_, ?_, ?_, ?_⟩
  · intro i hi
    have hb := traverseO_getElem hv i
    rw [List.getElem?_eq_getElem hi] at hb
    obtain ⟨line, hline, hfield⟩ := Option.bind_eq_some.mp hb
    refine ⟨line, vocab[i], hline, hfield, ?_⟩
    rw [dictGet_i2t]
    exact List.getElem?_eq_getElem hi
  · intro t ht
    obtain ⟨i, hi⟩ := Option.isSome_iff_exists.mp (t2i_isSome_of_mem ht)
    refine ⟨i, hi, ?_⟩
    rw [dictGet_i2t]
    exact t2i_points_into_vocab hi
  · intro t i h
    rw [dictGet_i2t]
    exact t2i_points_into_vocab h
  · intro j
    rw [List.map_reverse, List.count_reverse, count_map_fst_enumFromL]
    by_cases hj : j < vocab.length
    · rw [if_pos (by omega), if_pos hj]
    · rw [if_neg (by omega), if_neg hj]

/-- C4 witness: the mappings built from the spec's six-line vocabulary file
place `"<s>"` at id 2, invert each other there, and carry id 2 exactly
once. -/
theorem c4_witness :
    extractVocab c4content = some c4vocab ∧
    load_bpe_vocab c4content = some (c4t2i, c4i2t) ∧
    dictGet c4i2t 2 = some "<s>" ∧
    (c4i2t.map Prod.fst).count 2 = 1 := by
  refine ⟨rfl, rfl, ?_, ?_⟩
  · exact (c4_vocabBijection c4content c4vocab c4t2i c4i2t rfl rfl).2.2.2.1 "<s>" 2 rfl
  · exact ((c4_vocabBijection c4content c4vocab c4t2i c4i2t rfl rfl).2.2.2.2 2).trans (by rfl)

/-- C2: for a vocabulary side loaded by `load_bpe_vocab` that carries the
boundary markers `"<s>"` at id 2 and `"</s>"` at id 3 and an `"<unk>"` entry,
encoding a piece-line whose tokens are all listed yields
`[2, ids…, 3]`, and decoding that sequence with the same side reproduces the
original token list exactly, modulo the added boundary markers. -/
theorem c2_roundTrip (content : String) (t2i : List (String × Nat))
    (i2t : List (Nat × String)) (d : Dictionary) (mode : String) (uk : Nat) (line : String)
    (hload : load_bpe_vocab content = some (t2i, i2t))
    (hd : getMode d mode = some ⟨t2i, i2t⟩)
    (hs : dictGet t2i "<s>" = some 2)
    (he : dictGet t2i "</s>" = some 3)
    (hu : dictGet t2i "<unk>" = some uk)
    (hall : ∀ tok ∈ pySplit line, (dictGet t2i tok).isSome) :
    texts_to_sequences d [line] mode =
      Except.ok [2 :: (pySplit line).map (fun tok => (dictGet t2i tok).getD uk) ++ [3]]
    ∧ sequences_to_texts d
        [2 :: (pySplit line).map (fun tok => (dictGet t2i tok).getD uk) ++ [3]] mode =
      Except.ok ["<s>" :: pySplit line ++ ["</s>"]] := by
  obtain ⟨vocab, hv, ht2i, hi2t⟩ := load_bpe_vocab_eq_some hload
  subst ht2i
  subst hi2t
  have hinv : ∀ (t : String) (i : Nat),
      dictGet ((enumFromL 0 vocab).map (fun p => (p.2, p.1))).reverse t = some i →
      dictGet (enumFromL 0 vocab).reverse i = some t := by
    intro t i h
    rw [dictGet_i2t]
    exact t2i_points_into_vocab h
  constructor
  · have hinner :
        traverseE (encodeToken d mode) ("<s>" :: pySplit line ++ ["</s>"]) =
          Except.ok (("<s>" :: pySplit line ++ ["</s>"]).map
            (fun tok =>
              (dictGet ((enumFromL 0 vocab).map
                (fun p : Nat × String => (p.2, p.1))).reverse tok).getD uk)) := by
      apply traverseE_ok_map
      intro tok _
      simp only [encodeToken, hd, hu]
    rw [texts_to_sequences]
    refine (traverseE_singleton_ok hinner).trans ?_
    simp only [List.map_append, List.map_cons, List.map_nil, hs, he, Option.getD_some]
  · have h2lt : 2 < vocab.length := by
      have h := t2i_points_into_vocab hs
      exact (List.getElem?_eq_some.mp h).1
    have h1lt : 1 < vocab.length := by omega
    have hu1 : dictGet (enumFromL 0 vocab).reverse 1 = some vocab[1] := by
      rw [dictGet_i2t]
      exact List.getElem?_eq_getElem h1lt
    have hdec :
        traverseE (decodeIdx d mode)
          (2 :: (pySplit line).map
            (fun tok =>
              (dictGet ((enumFromL 0 vocab).map
                (fun p : Nat × String => (p.2, p.1))).reverse tok).getD uk)
            ++ [3]) =
          Except.ok ((2 :: (pySplit line).map
            (fun tok =>
              (dictGet ((enumFromL 0 vocab).map
                (fun p : Nat × String => (p.2, p.1))).reverse tok).getD uk)
            ++ [3]).map
              (fun idx => (dictGet (enumFromL 0 vocab).reverse idx).getD vocab[1])) := by
      apply traverseE_ok_map
      intro idx _
      simp only [decodeIdx, hd, hu1]
    have hmid : (pySplit line).map
        ((fun idx => (dictGet (enumFromL 0 vocab).reverse idx).getD vocab[1]) ∘
          fun tok =>
            (dictGet ((enumFromL 0 vocab).map
              (fun p : Nat × String => (p.2, p.1))).reverse tok).getD uk) =
        pySplit line := by
      apply map_self_of_eq
      intro tok htok
      obtain ⟨j, hj⟩ := Option.isSome_iff_exists.mp (hall tok htok)
      simp only [Function.comp_apply, hj, Option.getD_some, hinv _ _ hj]
    have hmapeq :
        ((2 :: (pySplit line).map
            (fun tok =>
              (dictGet ((enumFromL 0 vocab).map
                (fun p : Nat × String => (p.2, p.1))).reverse tok).getD uk)
            ++ [3]).map
              (fun idx => (dictGet (enumFromL 0 vocab).reverse idx).getD vocab[1])) =
          "<s>" :: pySplit line ++ ["</s>"] := by
      simp only [List.map_append, List.map_cons, List.map_nil, List.map_map]
      rw [hinv _ _ hs, hinv _ _ he, hmid]
      rfl
    rw [sequences_to_texts]
    exact (traverseE_singleton_ok hdec).trans (congrArg (fun l => Except.ok [l]) hmapeq)

/-- C2 witness: the spec's round-trip example with the vocabulary file
`exContent`: encoding `"hel@@ lo world"` yields `[2, 4, 5, 6, 3]` and
decoding that sequence reproduces the tokens bracketed by the markers. -/
theorem c2_witness :
    texts_to_sequences exDict ["hel@@ lo world"] "source" = Except.ok [[2, 4, 5, 6, 3]] ∧
    sequences_to_texts exDict [[2, 4, 5, 6, 3]] "source" =
      Except.ok [["<s>", "hel@@", "lo", "world", "</s>"]] := by
  have h := c2_roundTrip exContent exT2i exI2t exDict "source" 1 "hel@@ lo world"
    rfl rfl rfl rfl rfl (by decide)
  refine ⟨h.1.trans (by rfl), ?_⟩
  have he : (2 : Nat) :: (pySplit "hel@@ lo world").map
      (fun tok => (dictGet exT2i tok).getD 1) ++ [3] = [2, 4, 5, 6, 3] := by rfl
  rw [← he]
  exact h.2


end DataLoader
